import Mathlib

/-!
Shallow embedding of the `builder` repository (src/builder.py and
src/graphrunner.py) and proofs about its claims.

Modelling decisions, each traceable to the source:

* Target names are Lean `String`s.  Python callables are opaque values
  compared by identity; we model each distinct callable object as a
  distinct `Nat` token.
* An action (`Builder._targets[name]` / `GraphRunner._targets[name]`) is
  one of: `None` (noop), a command-line string, or a callable.  The
  "invalid action type" branch of `_execute` is unreachable for these
  three kinds and is not modelled.
* The polymorphic `deps` argument of `depends` is the inductive `PyDeps`:
  a callable, a list, a string, or a value of any other type (`pother`,
  e.g. an integer), matching the `callable` / `isinstance(list)` /
  `isinstance(str)` / `else` dispatch order of the source.
* Python dicts `_targets` and `_deps` become association lists with
  first-binding lookup; `d[k] = v` is `upsert` (replace the binding if
  present, else append).  All states built through the API have unique
  keys, so this is faithful.
* Exceptions become an `Err` value: `ValueError('name may not contain
  spaces')` is `invalidName` (the spec's InvalidNameError),
  `TypeError('... is not a valid dependancy type')` is `invalidDepType`
  (InvalidDependencyTypeError), and `LookupError`/`KeyError` on a missing
  target is `unknownTarget` (UnknownTargetError).  The
  `isinstance(name, str)` checks are vacuous here because names are typed.
* `_execute` is recursive with no structural bound in the source, so the
  embedding takes a fuel parameter; `Res.out` means the fuel ran out.
  "The call terminates" is rendered as: some fuel yields a non-`out`
  result.  Side effects of running actions and anonymous callables are
  recorded in an event log (`Ev`); `subprocess.check_call` is modelled as
  an external collaborator that succeeds, since no claim exercises a
  failing command.
* On an exception the engines' partially-mutated registry is discarded by
  the `Except` result; no claim observes state after a raise.
-/

/-- A target name. -/
abbrev Name := String

/-- The three action kinds a registered target can carry. -/
inductive Act where
  | noop : Act
  | cmd : String → Act
  | call : Nat → Act
deriving DecidableEq, Repr

/-- One stored dependency edge: a by-name reference or an anonymous
callable (identified by its object identity token). -/
inductive Dep where
  | byName : Name → Dep
  | anon : Nat → Dep
deriving DecidableEq, Repr

/-- Observable events of one execution: a target's own action ran, or an
anonymous callable dependency was invoked. -/
inductive Ev where
  | act : Name → Ev
  | anon : Nat → Ev
deriving DecidableEq, Repr

/-- The exceptions the embedded code can raise. -/
inductive Err where
  | invalidName : Err
  | invalidDepType : Err
  | unknownTarget : Dep → Err
deriving DecidableEq, Repr

/-- The shapes a Python value passed as the `deps` argument of `depends`
can take: a callable, a list, a string, or anything else. -/
inductive PyDeps where
  | pcall : Nat → PyDeps
  | plist : List PyDeps → PyDeps
  | pstr : String → PyDeps
  | pother : PyDeps

/-- Result of a fuelled `_execute` call: fuel exhausted, an exception, or
success carrying the final `done` list and the event log. -/
inductive Res where
  | out : Res
  | err : Err → Res
  | ok : List Dep → List Ev → Res
deriving DecidableEq, Repr

/-- Shared state shape of both engines: the `_targets` and `_deps` dicts. -/
structure St where
  targets : List (Name × Act)
  deps : List (Name × List Dep)
deriving DecidableEq, Repr

/-- First-binding association-list lookup, as a Python dict read. -/
def lookup? {α : Type} : List (Name × α) → Name → Option α
  | [], _ => none
  | (k, v) :: rest, n => if k = n then some v else lookup? rest n

/-- The keys of a dict. -/
def keysOf {α : Type} (l : List (Name × α)) : List Name := l.map Prod.fst

/-- Python `d[k] = v`: replace the binding if the key is present,
otherwise append it. -/
def upsert {α : Type} : List (Name × α) → Name → α → List (Name × α)
  | [], n, a => [(n, a)]
  | (k, v) :: rest, n, a => if k = n then (n, a) :: rest else (k, v) :: upsert rest n a

/-- The stored edge list of a name (`self._deps[name]` when present,
otherwise nothing to iterate). -/
def depsOf (S : St) (n : Name) : List Dep := (lookup? S.deps n).getD []

/-- Python `' ' in name` for a string: membership of the space character. -/
def hasSpace (name : Name) : Bool := name.data.contains ' '

/-- Python whitespace, the split-set of `str.split()`. -/
def pyWS (c : Char) : Bool :=
  c = ' ' ∨ c = '\t' ∨ c = '\n' ∨ c = '\r' ∨ c = '\x0b' ∨ c = '\x0c'

/-- Helper for `pyTokens`: scan the characters, accumulating the current
word reversed. -/
def wordsAux : List Char → List Char → List Name
  | [], [] => []
  | [], acc => [String.mk acc.reverse]
  | c :: cs, acc =>
    if pyWS c then
      match acc with
      | [] => wordsAux cs []
      | _ => String.mk acc.reverse :: wordsAux cs []
    else wordsAux cs (c :: acc)

/-- Python `s.strip().split()`: the maximal whitespace-free words of `s`. -/
def pyTokens (s : String) : List Name := wordsAux s.data []

/-- The event an entry of the `done` list corresponds to. -/
def evOf : Dep → Ev
  | .byName s => .act s
  | .anon f => .anon f

/-- The empty engine state (`__init__`). -/
def init0 : St := ⟨[], []⟩

namespace GraphRunner

/-- GraphRunner._add_dep: dedups against the edge list of `name`. -/
def addDep (S : St) (name : Name) (dep : Dep) : St :=
  match lookup? S.deps name with
  | some l => if dep ∈ l then S else { S with deps := upsert S.deps name (l ++ [dep]) }
  | none => { S with deps := S.deps ++ [(name, [dep])] }

mutual

/-- GraphRunner.depends: dispatch on the shape of the `deps` argument. -/
def depends (S : St) (name : Name) : PyDeps → Except Err St
  | .pcall f => .ok (addDep S name (.anon f))
  | .plist l => dependsList S name l
  | .pstr s => .ok ((pyTokens s).foldl (fun acc t => addDep acc name (.byName t)) S)
  | .pother => .error .invalidDepType

/-- The `for dep in deps: self.depends(name, dep)` loop of the list branch. -/
def dependsList (S : St) (name : Name) : List PyDeps → Except Err St
  | [] => .ok S
  | d :: rest =>
    match depends S name d with
    | .ok S1 => dependsList S1 name rest
    | .error e => .error e

end

/-- GraphRunner.target: reject names containing a space, store the action,
then declare the given dependencies. -/
def target (S : St) (name : Name) (action : Act) (deps : PyDeps) : Except Err St :=
  if hasSpace name then .error .invalidName
  else depends { S with targets := upsert S.targets name action } name deps

/-- GraphRunner.get_targets: the sorted key list of `_targets`. -/
def getTargets (S : St) : List Name :=
  List.insertionSort (· ≤ ·) (keysOf S.targets)

/-- The `for dep in deps` loop of GraphRunner._execute, parameterised by
the recursive call (`execF` is `_execute` at the remaining fuel). -/
def execList (execF : Name → List Dep → Res) : List Dep → List Dep → Res
  | [], done => .ok done []
  | Dep.anon f :: rest, done =>
    if Dep.anon f ∈ done then execList execF rest done
    else
      match execList execF rest (done ++ [Dep.anon f]) with
      | .out => .out
      | .err e => .err e
      | .ok d2 l2 => .ok d2 (Ev.anon f :: l2)
  | Dep.byName s :: rest, done =>
    match execF s done with
    | .out => .out
    | .err e => .err e
    | .ok d1 l1 =>
      match execList execF rest d1 with
      | .out => .out
      | .err e => .err e
      | .ok d2 l2 => .ok d2 (l1 ++ l2)

/-- GraphRunner._execute with fuel: return if already done, mark done at
entry, run the dependency edges, then look up and run the own action. -/
def exec (S : St) : Nat → Name → List Dep → Res
  | 0 => fun _ _ => .out
  | fuel + 1 => fun name done =>
    if Dep.byName name ∈ done then .ok done []
    else
      let done1 := done ++ [Dep.byName name]
      match execList (exec S fuel) (depsOf S name) done1 with
      | .out => .out
      | .err e => .err e
      | .ok d2 log =>
        match lookup? S.targets name with
        | none => .err (.unknownTarget (.byName name))
        | some _ => .ok d2 (log ++ [Ev.act name])

/-- GraphRunner.execute: check the name is registered, then run
`_execute(name, [])`. -/
def execute (S : St) (name : Name) (fuel : Nat) : Res :=
  if name ∈ keysOf S.targets then exec S fuel name []
  else .err (.unknownTarget (.byName name))

end GraphRunner

namespace Builder

/-- Builder._add_dep: note the source checks `dep not in self._deps`,
membership among the KEYS of the dict, not in the edge list of `name`. -/
def addDep (S : St) (name : Name) (dep : Dep) : St :=
  match lookup? S.deps name with
  | some l =>
    if (match dep with
        | .byName s => decide (s ∈ keysOf S.deps)
        | .anon _ => false)
    then S
    else { S with deps := upsert S.deps name (l ++ [dep]) }
  | none => { S with deps := S.deps ++ [(name, [dep])] }

mutual

/-- Builder.depends: same dispatch as GraphRunner.depends. -/
def depends (S : St) (name : Name) : PyDeps → Except Err St
  | .pcall f => .ok (addDep S name (.anon f))
  | .plist l => dependsList S name l
  | .pstr s => .ok ((pyTokens s).foldl (fun acc t => addDep acc name (.byName t)) S)
  | .pother => .error .invalidDepType

/-- The list branch loop of Builder.depends. -/
def dependsList (S : St) (name : Name) : List PyDeps → Except Err St
  | [] => .ok S
  | d :: rest =>
    match depends S name d with
    | .ok S1 => dependsList S1 name rest
    | .error e => .error e

end

/-- Builder.target: identical to GraphRunner.target. -/
def target (S : St) (name : Name) (action : Act) (deps : PyDeps) : Except Err St :=
  if hasSpace name then .error .invalidName
  else depends { S with targets := upsert S.targets name action } name deps

/-- Builder.get_targets. -/
def getTargets (S : St) : List Name :=
  List.insertionSort (· ≤ ·) (keysOf S.targets)

/-- The `for dep in deps` loop of Builder._execute: an anonymous callable
not yet done is invoked; otherwise (a by-name edge, or a callable already
done) the code recurses into `_execute(dep, done)`. -/
def execList (execF : Dep → List Dep → Res) : List Dep → List Dep → Res
  | [], done => .ok done []
  | Dep.anon f :: rest, done =>
    if Dep.anon f ∈ done then
      match execF (Dep.anon f) done with
      | .out => .out
      | .err e => .err e
      | .ok d1 l1 =>
        match execList execF rest d1 with
        | .out => .out
        | .err e => .err e
        | .ok d2 l2 => .ok d2 (l1 ++ l2)
    else
      match execList execF rest (done ++ [Dep.anon f]) with
      | .out => .out
      | .err e => .err e
      | .ok d2 l2 => .ok d2 (Ev.anon f :: l2)
  | Dep.byName s :: rest, done =>
    match execF (Dep.byName s) done with
    | .out => .out
    | .err e => .err e
    | .ok d1 l1 =>
      match execList execF rest d1 with
      | .out => .out
      | .err e => .err e
      | .ok d2 l2 => .ok d2 (l1 ++ l2)

/-- Builder._execute with fuel.  There is no done-check at entry: the
dependency edges are processed first, then `self._targets[name]` is read
(KeyError = `unknownTarget` if absent, including the case where the code
recursed into a callable), and only then is the name checked against and
added to `done` before its own action runs. -/
def exec (S : St) : Nat → Dep → List Dep → Res
  | 0 => fun _ _ => .out
  | fuel + 1 => fun nd done =>
    let r :=
      match nd with
      | Dep.byName s => execList (exec S fuel) (depsOf S s) done
      | Dep.anon _ => .ok done []
    match r with
    | .out => .out
    | .err e => .err e
    | .ok d2 log =>
      match nd with
      | Dep.anon f => .err (.unknownTarget (.anon f))
      | Dep.byName s =>
        match lookup? S.targets s with
        | none => .err (.unknownTarget (.byName s))
        | some _ =>
          if Dep.byName s ∈ d2 then .ok d2 log
          else .ok (d2 ++ [Dep.byName s]) (log ++ [Ev.act s])

/-- Builder.execute. -/
def execute (S : St) (name : Name) (fuel : Nat) : Res :=
  if name ∈ keysOf S.targets then exec S fuel (Dep.byName name) []
  else .err (.unknownTarget (.byName name))

end Builder

/-! ## Association-list facts -/

theorem lookup?_mem {α : Type} : ∀ {l : List (Name × α)} {n : Name} {v : α},
    lookup? l n = some v → (n, v) ∈ l := by
  intro l
  induction l with
  | nil => intro n v h; simp [lookup?] at h
  | cons p rest ih =>
    intro n v h
    obtain ⟨k, w⟩ := p
    by_cases he : k = n
    · subst he
      simp only [lookup?, if_true, eq_self_iff_true, Option.some.injEq] at h
      subst h
      exact List.mem_cons_self _ _
    · simp only [lookup?, if_neg he] at h
      exact List.mem_cons_of_mem _ (ih h)

theorem mem_keys_lookup {α : Type} : ∀ {l : List (Name × α)} {n : Name},
    n ∈ keysOf l → ∃ v, lookup? l n = some v := by
  intro l
  induction l with
  | nil => intro n h; simp [keysOf] at h
  | cons p rest ih =>
    intro n h
    by_cases he : p.1 = n
    · exact ⟨p.2, by simp [lookup?, if_pos he]⟩
    · have : n ∈ keysOf rest := by
        simp only [keysOf, List.map_cons, List.mem_cons] at h
        rcases h with h | h
        · exact absurd h.symm he
        · exact h
      obtain ⟨v, hv⟩ := ih this
      exact ⟨v, by simp [lookup?, if_neg he, hv]⟩

theorem lookup?_eq_none {α : Type} : ∀ {l : List (Name × α)} {n : Name},
    n ∉ keysOf l → lookup? l n = none := by
  intro l
  induction l with
  | nil => intro n _; rfl
  | cons p rest ih =>
    intro n h
    obtain ⟨k, w⟩ := p
    simp only [keysOf, List.map_cons, List.mem_cons] at h
    push_neg at h
    have hk : ¬ (k = n) := fun he => h.1 he.symm
    simp only [lookup?, if_neg hk]
    exact ih (by simpa [keysOf] using h.2)

/-! ## Reachability through the stored dependency graph -/

/-- Names reachable from a given name by following by-name edges of the
stored graph. -/
inductive Reaches (S : St) : Name → Name → Prop
  | refl (a : Name) : Reaches S a a
  | step {a b c : Name} : Reaches S a b → Dep.byName c ∈ depsOf S b → Reaches S a c

theorem Reaches.chain {S : St} {a b c : Name} (h1 : Reaches S a b)
    (h2 : Reaches S b c) : Reaches S a c := by
  induction h2 with
  | refl => exact h1
  | step _ mem ih => exact Reaches.step ih mem

/-- A stored dependency entry reachable from `root`: a reachable name, or
an anonymous callable that is a declared edge of a reachable name. -/
def ReachDep (S : St) (root : Name) : Dep → Prop
  | .byName s => Reaches S root s
  | .anon f => ∃ m, Reaches S root m ∧ Dep.anon f ∈ depsOf S m

theorem ReachDep.widen {S : St} {a b : Name} {x : Dep} (h1 : Reaches S a b)
    (h2 : ReachDep S b x) : ReachDep S a x := by
  cases x with
  | byName s => exact h1.chain h2
  | anon f =>
    obtain ⟨m, hm, hx⟩ := h2
    exact ⟨m, h1.chain hm, hx⟩

/-- All declared edges of `n` occur in `d`. -/
def DepsIn (S : St) (n : Name) (d : List Dep) : Prop := ∀ x ∈ depsOf S n, x ∈ d

theorem DepsIn.extend {S : St} {n : Name} {d1 d : List Dep}
    (h : DepsIn S n d1) (hsub : ∀ x ∈ d1, x ∈ d) : DepsIn S n d :=
  fun x hx => hsub x (h x hx)

/-! ## Shape of a successful GraphRunner execution -/

/-- The final done list extends the initial one by fresh, duplicate-free
entries, and the log is exactly their events (as a multiset). -/
def ExtShape (done d : List Dep) (l : List Ev) : Prop :=
  ∃ ext, d = done ++ ext ∧ l.Perm (ext.map evOf) ∧ (∀ x ∈ ext, x ∉ done) ∧ ext.Nodup

theorem ExtShape.nil {done : List Dep} : ExtShape done done [] :=
  ⟨[], by simp⟩

theorem ExtShape.sub {done d : List Dep} {l : List Ev} (h : ExtShape done d l) :
    ∀ x ∈ done, x ∈ d := by
  obtain ⟨ext, rfl, -, -, -⟩ := h
  exact fun x hx => List.mem_append_left _ hx

theorem ExtShape.glue {done d1 d : List Dep} {l1 l2 : List Ev}
    (h1 : ExtShape done d1 l1) (h2 : ExtShape d1 d l2) :
    ExtShape done d (l1 ++ l2) := by
  obtain ⟨e1, rfl, hp1, hf1, hn1⟩ := h1
  obtain ⟨e2, rfl, hp2, hf2, hn2⟩ := h2
  refine ⟨e1 ++ e2, by simp, ?_, ?_, ?_⟩
  · simpa [List.map_append] using hp1.append hp2
  · intro x hx
    rcases List.mem_append.mp hx with hx | hx
    · exact hf1 x hx
    · exact fun hd => hf2 x hx (List.mem_append_left _ hd)
  · rw [List.nodup_append]
    refine ⟨hn1, hn2, ?_⟩
    intro x hx1 hx2
    exact hf2 x hx2 (List.mem_append_right _ hx1)

theorem ExtShape.consFresh {x : Dep} {done d : List Dep} {l : List Ev}
    (hx : x ∉ done) (h : ExtShape (done ++ [x]) d l) :
    ExtShape done d (evOf x :: l) := by
  obtain ⟨ext, rfl, hp, hf, hn⟩ := h
  refine ⟨x :: ext, by simp, ?_, ?_, ?_⟩
  · simpa using hp.cons (evOf x)
  · intro y hy
    rcases List.mem_cons.mp hy with rfl | hy
    · exact hx
    · exact fun hd => hf y hy (List.mem_append_left _ hd)
  · refine List.nodup_cons.mpr ⟨?_, hn⟩
    exact fun hmem => hf x hmem (List.mem_append_right _ (by simp))

theorem ExtShape.entryMark {s : Name} {done d : List Dep} {l : List Ev}
    (hx : Dep.byName s ∉ done) (h : ExtShape (done ++ [Dep.byName s]) d l) :
    ExtShape done d (l ++ [Ev.act s]) := by
  obtain ⟨ext, rfl, hp, hf, hn⟩ := h
  refine ⟨Dep.byName s :: ext, by simp, ?_, ?_, ?_⟩
  · have h1 : (l ++ [Ev.act s]).Perm (Ev.act s :: l) := List.perm_append_singleton _ _
    have h2 : (Ev.act s :: l).Perm (Ev.act s :: List.map evOf ext) := hp.cons _
    simpa [evOf] using h1.trans h2
  · intro y hy
    rcases List.mem_cons.mp hy with rfl | hy
    · exact hx
    · exact fun hd => hf y hy (List.mem_append_left _ hd)
  · refine List.nodup_cons.mpr ⟨?_, hn⟩
    exact fun hmem => hf _ hmem (List.mem_append_right _ (by simp))

/-- Postcondition of a successful GraphRunner._execute call on `src`. -/
def Post (S : St) (src : Name) (done d : List Dep) (l : List Ev) : Prop :=
  ExtShape done d l ∧
  (∀ x ∈ d, x ∈ done ∨ ReachDep S src x) ∧
  Dep.byName src ∈ d ∧
  (∀ n, Dep.byName n ∈ d → Dep.byName n ∈ done ∨ DepsIn S n d)

/-- Postcondition of a successful run of the dependency loop over `ld`. -/
def PostL (S : St) (src : Name) (ld done d : List Dep) (l : List Ev) : Prop :=
  ExtShape done d l ∧
  (∀ x ∈ d, x ∈ done ∨ ReachDep S src x) ∧
  (∀ x ∈ ld, x ∈ d) ∧
  (∀ n, Dep.byName n ∈ d → Dep.byName n ∈ done ∨ DepsIn S n d)

theorem execList_post {S : St} {execF : Name → List Dep → Res}
    (hex : ∀ s done d l, execF s done = Res.ok d l → Post S s done d l)
    {src : Name} :
    ∀ (ld done d : List Dep) (l : List Ev),
      (∀ x ∈ ld, ReachDep S src x) →
      GraphRunner.execList execF ld done = Res.ok d l →
      PostL S src ld done d l := by
  intro ld
  induction ld with
  | nil =>
    intro done d l _ h
    simp only [GraphRunner.execList, Res.ok.injEq] at h
    obtain ⟨rfl, rfl⟩ := h
    exact ⟨ExtShape.nil, fun x hx => Or.inl hx, by simp, fun n hn => Or.inl hn⟩
  | cons hd rest ih =>
    intro done d l hld h
    have hldr : ∀ x ∈ rest, ReachDep S src x :=
      fun x hx => hld x (List.mem_cons_of_mem _ hx)
    have hhd : ReachDep S src hd := hld hd (List.mem_cons_self _ _)
    cases hd with
    | anon f =>
      by_cases hmem : Dep.anon f ∈ done
      · rw [show GraphRunner.execList execF (Dep.anon f :: rest) done
              = GraphRunner.execList execF rest done by
            simp [GraphRunner.execList, hmem]] at h
        obtain ⟨hsh, hsound, hmemL, hclosed⟩ := ih done d l hldr h
        refine ⟨hsh, hsound, ?_, hclosed⟩
        intro x hx
        rcases List.mem_cons.mp hx with rfl | hx
        · exact hsh.sub _ hmem
        · exact hmemL x hx
      · simp only [GraphRunner.execList, if_neg hmem] at h
        cases hE : GraphRunner.execList execF rest (done ++ [Dep.anon f]) with
        | out => rw [hE] at h; cases h
        | err e => rw [hE] at h; cases h
        | ok d2 l2 =>
          rw [hE] at h
          simp only [Res.ok.injEq] at h
          obtain ⟨rfl, rfl⟩ := h
          obtain ⟨hsh, hsound, hmemL, hclosed⟩ := ih (done ++ [Dep.anon f]) d2 l2 hldr hE
          refine ⟨?_, ?_, ?_, ?_⟩
          · exact hsh.consFresh hmem
          · intro x hx
            rcases hsound x hx with hx1 | hx1
            · rcases List.mem_append.mp hx1 with hx2 | hx2
              · exact Or.inl hx2
              · simp only [List.mem_singleton] at hx2
                subst hx2
                exact Or.inr hhd
            · exact Or.inr hx1
          · intro x hx
            rcases List.mem_cons.mp hx with rfl | hx
            · exact hsh.sub _ (List.mem_append_right _ (by simp))
            · exact hmemL x hx
          · intro n hn
            rcases hclosed n hn with hn1 | hn1
            · rcases List.mem_append.mp hn1 with hn2 | hn2
              · exact Or.inl hn2
              · simp at hn2
            · exact Or.inr hn1
    | byName s =>
      simp only [GraphRunner.execList] at h
      cases hE1 : execF s done with
      | out => rw [hE1] at h; cases h
      | err e => rw [hE1] at h; cases h
      | ok d1 l1 =>
        rw [hE1] at h
        dsimp only at h
        cases hE2 : GraphRunner.execList execF rest d1 with
        | out => rw [hE2] at h; cases h
        | err e => rw [hE2] at h; cases h
        | ok d2 l2 =>
          rw [hE2] at h
          simp only [Res.ok.injEq] at h
          obtain ⟨rfl, rfl⟩ := h
          have hs : Reaches S src s := hhd
          obtain ⟨hsh1, hsound1, hself1, hclosed1⟩ := hex s done d1 l1 hE1
          obtain ⟨hsh2, hsound2, hmemL2, hclosed2⟩ := ih d1 d2 l2 hldr hE2
          refine ⟨hsh1.glue hsh2, ?_, ?_, ?_⟩
          · intro x hx
            rcases hsound2 x hx with hx1 | hx1
            · rcases hsound1 x hx1 with hx2 | hx2
              · exact Or.inl hx2
              · exact Or.inr (ReachDep.widen hs hx2)
            · exact Or.inr hx1
          · intro x hx
            rcases List.mem_cons.mp hx with rfl | hx
            · exact hsh2.sub _ hself1
            · exact hmemL2 x hx
          · intro n hn
            rcases hclosed2 n hn with hn1 | hn1
            · rcases hclosed1 n hn1 with hn2 | hn2
              · exact Or.inl hn2
              · exact Or.inr (hn2.extend (hsh2.sub))
            · exact Or.inr hn1

theorem exec_post (S : St) :
    ∀ (fuel : Nat) (name : Name) (done d : List Dep) (l : List Ev),
      GraphRunner.exec S fuel name done = Res.ok d l → Post S name done d l := by
  intro fuel
  induction fuel with
  | zero => intro name done d l h; cases h
  | succ fuel ih =>
    intro name done d l h
    by_cases hmem : Dep.byName name ∈ done
    · simp only [GraphRunner.exec, if_pos hmem, Res.ok.injEq] at h
      obtain ⟨rfl, rfl⟩ := h
      exact ⟨ExtShape.nil, fun x hx => Or.inl hx, hmem, fun n hn => Or.inl hn⟩
    · simp only [GraphRunner.exec, if_neg hmem] at h
      cases hE : GraphRunner.execList (GraphRunner.exec S fuel) (depsOf S name)
          (done ++ [Dep.byName name]) with
      | out => rw [hE] at h; cases h
      | err e => rw [hE] at h; cases h
      | ok d2 log =>
        rw [hE] at h
        cases hT : lookup? S.targets name with
        | none => rw [hT] at h; cases h
        | some a =>
          rw [hT] at h
          simp only [Res.ok.injEq] at h
          obtain ⟨rfl, rfl⟩ := h
          have hld : ∀ x ∈ depsOf S name, ReachDep S name x := by
            intro x hx
            cases x with
            | byName t => exact Reaches.step (Reaches.refl name) hx
            | anon g => exact ⟨name, Reaches.refl name, hx⟩
          obtain ⟨hsh, hsound, hmemL, hclosed⟩ :=
            execList_post (fun s done1 d1 l1 he => ih s done1 d1 l1 he)
              (depsOf S name) (done ++ [Dep.byName name]) d2 log hld hE
          refine ⟨hsh.entryMark hmem, ?_, ?_, ?_⟩
          · intro x hx
            rcases hsound x hx with hx1 | hx1
            · rcases List.mem_append.mp hx1 with hx2 | hx2
              · exact Or.inl hx2
              · simp only [List.mem_singleton] at hx2
                subst hx2
                exact Or.inr (Reaches.refl name)
            · exact Or.inr hx1
          · exact hsh.sub _ (List.mem_append_right _ (by simp))
          · intro n hn
            rcases hclosed n hn with hn1 | hn1
            · rcases List.mem_append.mp hn1 with hn2 | hn2
              · exact Or.inl hn2
              · simp only [List.mem_singleton, Dep.byName.injEq] at hn2
                subst hn2
                exact Or.inr (fun x hx => hmemL x hx)
            · exact Or.inr hn1

/-! ## Fuel adequacy for GraphRunner -/

/-- Wellformedness: every stored by-name edge refers to a registered
target. -/
def WFb (S : St) : Bool :=
  S.deps.all fun p => p.2.all fun x =>
    match x with
    | Dep.byName s => decide (s ∈ keysOf S.targets)
    | Dep.anon _ => true

theorem wf_depsOf {S : St} (hwf : WFb S = true) (n : Name) :
    ∀ x ∈ depsOf S n, ∀ s, x = Dep.byName s → s ∈ keysOf S.targets := by
  intro x hx s hs
  subst hs
  unfold depsOf at hx
  cases hL : lookup? S.deps n with
  | none => rw [hL] at hx; simp at hx
  | some ld =>
    rw [hL] at hx
    simp only [Option.getD_some] at hx
    have hp : (n, ld) ∈ S.deps := lookup?_mem hL
    have := (List.all_eq_true.mp hwf) _ hp
    have := (List.all_eq_true.mp this) _ hx
    simpa using this

/-- The number of registered names not yet in the done list: the
termination measure of the traversal. -/
def missing (S : St) (done : List Dep) : Nat :=
  ((keysOf S.targets).filter fun k => decide (Dep.byName k ∉ done)).length

theorem filter_len_mono {α : Type} {p q : α → Bool}
    (h : ∀ a, p a = true → q a = true) :
    ∀ l : List α, (l.filter p).length ≤ (l.filter q).length := by
  intro l
  induction l with
  | nil => simp
  | cons a rest ih =>
    by_cases hp : p a = true
    · simp only [List.filter_cons, hp, if_true, h a hp, List.length_cons]
      omega
    · have hp2 : p a = false := by simpa using hp
      simp only [List.filter_cons, hp2]
      cases hq : q a <;> simp [List.length_cons] <;> omega

theorem filter_len_strict {α : Type} {p q : α → Bool}
    (h : ∀ a, p a = true → q a = true) (a0 : α)
    (hpa : p a0 = false) (hqa : q a0 = true) :
    ∀ l : List α, a0 ∈ l → (l.filter p).length < (l.filter q).length := by
  intro l
  induction l with
  | nil => intro hx; simp at hx
  | cons a rest ih =>
    intro hx
    rcases List.mem_cons.mp hx with rfl | hx
    · simp only [List.filter_cons, hpa, hqa, Bool.false_eq_true, if_false, if_true,
        List.length_cons]
      have := filter_len_mono h rest
      omega
    · have hr := ih hx
      have hm := filter_len_mono h rest
      by_cases hp : p a = true
      · simp only [List.filter_cons, hp, if_true, h a hp, List.length_cons]
        omega
      · have hp2 : p a = false := by simpa using hp
        simp only [List.filter_cons, hp2]
        cases hq : q a <;> simp [List.length_cons] <;> omega

theorem missing_mono (S : St) (done ext : List Dep) :
    missing S (done ++ ext) ≤ missing S done := by
  apply filter_len_mono
  intro k hk
  simp only [decide_eq_true_eq] at hk ⊢
  exact fun hmem => hk (List.mem_append_left _ hmem)

theorem missing_strict {S : St} {name : Name} {done : List Dep}
    (hname : name ∈ keysOf S.targets) (hmem : Dep.byName name ∉ done) :
    missing S (done ++ [Dep.byName name]) < missing S done := by
  apply filter_len_strict _ name _ _ _ hname
  · intro k hk
    simp only [decide_eq_true_eq] at hk ⊢
    exact fun hm => hk (List.mem_append_left _ hm)
  · simp
  · simpa using hmem

theorem execList_total {S : St} {fuel : Nat}
    (hex : ∀ s done, s ∈ keysOf S.targets → missing S done < fuel →
        ∃ d l, GraphRunner.exec S fuel s done = Res.ok d l) :
    ∀ (ld done : List Dep),
      (∀ x ∈ ld, ∀ s, x = Dep.byName s → s ∈ keysOf S.targets) →
      missing S done < fuel →
      ∃ d l, GraphRunner.execList (GraphRunner.exec S fuel) ld done = Res.ok d l := by
  intro ld
  induction ld with
  | nil => intro done _ _; exact ⟨done, [], rfl⟩
  | cons hd rest ih =>
    intro done hld hfuel
    have hldr : ∀ x ∈ rest, ∀ s, x = Dep.byName s → s ∈ keysOf S.targets :=
      fun x hx => hld x (List.mem_cons_of_mem _ hx)
    cases hd with
    | anon f =>
      by_cases hmem : Dep.anon f ∈ done
      · obtain ⟨d, l, hdl⟩ := ih done hldr hfuel
        exact ⟨d, l, by simpa [GraphRunner.execList, hmem] using hdl⟩
      · have hfuel2 : missing S (done ++ [Dep.anon f]) < fuel :=
          lt_of_le_of_lt (missing_mono S done [Dep.anon f]) hfuel
        obtain ⟨d, l, hdl⟩ := ih (done ++ [Dep.anon f]) hldr hfuel2
        refine ⟨d, Ev.anon f :: l, ?_⟩
        simp only [GraphRunner.execList, if_neg hmem, hdl]
    | byName s =>
      have hs : s ∈ keysOf S.targets := hld _ (List.mem_cons_self _ _) s rfl
      obtain ⟨d1, l1, h1⟩ := hex s done hs hfuel
      obtain ⟨ext, hext, -, -, -⟩ := (exec_post S fuel s done d1 l1 h1).1
      have hfuel2 : missing S d1 < fuel := by
        rw [hext]
        exact lt_of_le_of_lt (missing_mono S done ext) hfuel
      obtain ⟨d2, l2, h2⟩ := ih d1 hldr hfuel2
      refine ⟨d2, l1 ++ l2, ?_⟩
      simp only [GraphRunner.execList, h1, h2]

theorem exec_total (S : St) (hwf : WFb S = true) :
    ∀ (fuel : Nat) (name : Name) (done : List Dep),
      name ∈ keysOf S.targets → missing S done < fuel →
      ∃ d l, GraphRunner.exec S fuel name done = Res.ok d l := by
  intro fuel
  induction fuel with
  | zero => intro name done _ hf; omega
  | succ fuel ih =>
    intro name done hname hfuel
    by_cases hmem : Dep.byName name ∈ done
    · exact ⟨done, [], by simp [GraphRunner.exec, hmem]⟩
    · have hstrict := missing_strict hname hmem
      have hfuel2 : missing S (done ++ [Dep.byName name]) < fuel := by omega
      obtain ⟨d2, log, h2⟩ :=
        execList_total (fun s done2 hs hf => ih s done2 hs hf)
          (depsOf S name) (done ++ [Dep.byName name])
          (wf_depsOf hwf name) hfuel2
      obtain ⟨a, ha⟩ := mem_keys_lookup hname
      exact ⟨d2, log ++ [Ev.act name],
        by simp only [GraphRunner.exec, if_neg hmem, h2, ha]⟩

/-! ## Counting events of a successful top-level GraphRunner run -/

theorem evOf_injective : Function.Injective evOf := by
  intro a b hab
  cases a <;> cases b <;> simp_all [evOf]

/-- What a successful `_execute(root, [])` run guarantees: the done list is
exactly the reachable entries, without duplicates, and the log counts agree
with the done list. -/
theorem exec_run_main {S : St} {root : Name} {fuel : Nat} {d : List Dep} {l : List Ev}
    (h : GraphRunner.exec S fuel root [] = Res.ok d l) :
    (∀ x : Dep, x ∈ d ↔ ReachDep S root x) ∧
    (∀ x : Dep, l.count (evOf x) = d.count x) ∧ d.Nodup := by
  obtain ⟨⟨ext, hext, hperm, -, hnodup⟩, hsound, hself, hclosed⟩ :=
    exec_post S fuel root [] d l h
  simp only [List.nil_append] at hext
  subst hext
  have hreach : ∀ n, Reaches S root n → Dep.byName n ∈ d := by
    intro n hn
    induction hn with
    | refl => exact hself
    | step _ hmem ihr =>
      rcases hclosed _ ihr with h1 | h1
      · simp at h1
      · exact h1 _ hmem
  refine ⟨?_, ?_, hnodup⟩
  · intro x
    constructor
    · intro hx
      rcases hsound x hx with h1 | h1
      · simp at h1
      · exact h1
    · intro hx
      cases x with
      | byName n => exact hreach n hx
      | anon f =>
        obtain ⟨m, hm, hmem⟩ := hx
        rcases hclosed _ (hreach m hm) with h1 | h1
        · simp at h1
        · exact h1 _ hmem
  · intro x
    rw [hperm.count_eq]
    exact List.count_map_of_injective _ _ evOf_injective x

theorem two_le_countP {α : Type} [DecidableEq α] (p : α → Bool) (a b : α)
    (hab : a ≠ b) (ha : p a = true) (hb : p b = true) :
    ∀ l : List α, l.count a + l.count b ≤ l.countP p := by
  intro l
  induction l with
  | nil => simp
  | cons c rest ih =>
    rcases eq_or_ne c a with rfl | hca
    · simp only [List.count_cons, List.countP_cons, ha, if_true, beq_self_eq_true]
      have hcb : (c == b) = false := by simpa using hab
      simp only [hcb, Bool.false_eq_true, if_false]
      omega
    · rcases eq_or_ne c b with rfl | hcb
      · simp only [List.count_cons, List.countP_cons, hb, if_true, beq_self_eq_true]
        have hca2 : (c == a) = false := by simpa using hca
        simp only [hca2, Bool.false_eq_true, if_false]
        omega
      · have h1 : (c == a) = false := by simpa using hca
        have h2 : (c == b) = false := by simpa using hcb
        simp only [List.count_cons, List.countP_cons, h1, h2, Bool.false_eq_true, if_false]
        by_cases hpc : p c = true
        · simp only [hpc, if_true]; omega
        · simp only [hpc, if_false]; omega

/-! ## The Builder engine diverges on a reachable cycle -/

/-- Concrete two-name cycle: A and B registered with noop actions,
A depends on B, and B depends on A. -/
def nA : Name := "A"

/-- Second name of the concrete cycle. -/
def nB : Name := "B"

/-- The cyclic registry built from defineTarget(A), defineTarget(B),
addDependency(A, B), addDependency(B, A). -/
def cyc2 : St :=
  ⟨[(nA, Act.noop), (nB, Act.noop)], [(nA, [Dep.byName nB]), (nB, [Dep.byName nA])]⟩

theorem cyc2_exec_out : ∀ (fuel : Nat) (done : List Dep),
    Builder.exec cyc2 fuel (Dep.byName nA) done = Res.out ∧
    Builder.exec cyc2 fuel (Dep.byName nB) done = Res.out := by
  intro fuel
  induction fuel with
  | zero => intro done; exact ⟨rfl, rfl⟩
  | succ fuel ih =>
    intro done
    constructor
    · have hd : depsOf cyc2 nA = [Dep.byName nB] := by decide
      simp only [Builder.exec, hd, Builder.execList, (ih done).2]
    · have hd : depsOf cyc2 nB = [Dep.byName nA] := by decide
      simp only [Builder.exec, hd, Builder.execList, (ih done).1]

theorem cyc2_execute_out : ∀ fuel : Nat, Builder.execute cyc2 nA fuel = Res.out := by
  intro fuel
  have hk : nA ∈ keysOf cyc2.targets := by decide
  simp only [Builder.execute, if_pos hk, (cyc2_exec_out fuel []).1]

/-! ## Claim C1 -/

/-- Claim C1, corrected.  For every wellformed dependency graph containing
a cycle through the executed name (self-dependencies included), the
GraphRunner variant (done marked at entry) terminates `execute(name)` and
invokes each reachable target's action exactly once; the Builder variant
(done marked only at action time) does not terminate on a cycle, shown on
the concrete two-name cycle `cyc2`. -/
theorem claim_C1 (S : St) (root : Name) (hwf : WFb S = true)
    (hroot : root ∈ keysOf S.targets)
    (_hcyc : ∃ m, Reaches S root m ∧ Dep.byName root ∈ depsOf S m) :
    (∃ fuel d l, GraphRunner.execute S root fuel = Res.ok d l ∧
      ∀ n : Name, (Reaches S root n → l.count (Ev.act n) = 1) ∧
        (¬ Reaches S root n → l.count (Ev.act n) = 0)) ∧
    (∀ fuel : Nat, Builder.execute cyc2 nA fuel = Res.out) := by
  refine ⟨?_, cyc2_execute_out⟩
  obtain ⟨d, l, hrun⟩ := exec_total S hwf (missing S [] + 1) root [] hroot (by omega)
  obtain ⟨hmemIff, hcount, hnodup⟩ := exec_run_main hrun
  refine ⟨missing S [] + 1, d, l, ?_, ?_⟩
  · simp only [GraphRunner.execute, if_pos hroot]
    exact hrun
  · intro n
    constructor
    · intro hr
      have hmem : Dep.byName n ∈ d := (hmemIff (Dep.byName n)).mpr hr
      have hc := hcount (Dep.byName n)
      rw [show evOf (Dep.byName n) = Ev.act n from rfl] at hc
      rw [hc]
      exact List.count_eq_one_of_mem hnodup hmem
    · intro hr
      have hmem : Dep.byName n ∉ d := fun hm => hr ((hmemIff (Dep.byName n)).mp hm)
      have hc := hcount (Dep.byName n)
      rw [show evOf (Dep.byName n) = Ev.act n from rfl] at hc
      rw [hc]
      exact List.count_eq_zero_of_not_mem hmem

/-- Claim C1 counterexample: on the concrete registered two-name cycle,
Builder's execute never terminates, at any fuel, refuting the claim that
both engine variants terminate on cyclic graphs. -/
theorem claim_C1_counterexample :
    (Dep.byName nB ∈ depsOf cyc2 nA ∧ Dep.byName nA ∈ depsOf cyc2 nB ∧
      nA ∈ keysOf cyc2.targets ∧ nB ∈ keysOf cyc2.targets) ∧
    ¬ ∃ fuel : Nat, Builder.execute cyc2 nA fuel ≠ Res.out := by
  refine ⟨by decide, ?_⟩
  rintro ⟨fuel, hne⟩
  exact hne (cyc2_execute_out fuel)

/-- Claim C1 witness: the corrected theorem applied to the concrete
wellformed cycle `cyc2` executed from A. -/
theorem claim_C1_witness :
    WFb cyc2 = true ∧ nA ∈ keysOf cyc2.targets ∧
    ((∃ fuel d l, GraphRunner.execute cyc2 nA fuel = Res.ok d l ∧
        ∀ n : Name, (Reaches cyc2 nA n → l.count (Ev.act n) = 1) ∧
          (¬ Reaches cyc2 nA n → l.count (Ev.act n) = 0)) ∧
      (∀ fuel : Nat, Builder.execute cyc2 nA fuel = Res.out)) :=
  ⟨by decide, by decide,
    claim_C1 cyc2 nA (by decide) (by decide)
      ⟨nB, Reaches.step (Reaches.refl nA) (by decide), by decide⟩⟩

/-! ## Claim C10 -/

/-- A successful top-level execute call reduces to a successful _execute
call (the registration pre-check must have passed). -/
theorem execute_ok_exec {S : St} {root : Name} {fuel : Nat} {d : List Dep} {l : List Ev}
    (h : GraphRunner.execute S root fuel = Res.ok d l) :
    GraphRunner.exec S fuel root [] = Res.ok d l := by
  by_cases hk : root ∈ keysOf S.targets
  · simpa [GraphRunner.execute, hk] using h
  · simp [GraphRunner.execute, hk] at h

/-- In a successful run, a reachable target's action event appears exactly
once in the log. -/
theorem run_count_act {S : St} {root : Name} {fuel : Nat} {d : List Dep} {l : List Ev}
    (h : GraphRunner.exec S fuel root [] = Res.ok d l) {n : Name}
    (hr : Reaches S root n) : l.count (Ev.act n) = 1 := by
  obtain ⟨hmemIff, hcount, hnodup⟩ := exec_run_main h
  have hmem : Dep.byName n ∈ d := (hmemIff (Dep.byName n)).mpr hr
  have hc := hcount (Dep.byName n)
  rw [show evOf (Dep.byName n) = Ev.act n from rfl] at hc
  rw [hc]
  exact List.count_eq_one_of_mem hnodup hmem

/-- In a successful run, an anonymous callable declared as an edge of a
reachable name is invoked exactly once. -/
theorem run_count_anon {S : St} {root : Name} {fuel : Nat} {d : List Dep} {l : List Ev}
    (h : GraphRunner.exec S fuel root [] = Res.ok d l) {f : Nat} {m : Name}
    (hm : Reaches S root m) (hdep : Dep.anon f ∈ depsOf S m) :
    l.count (Ev.anon f) = 1 := by
  obtain ⟨hmemIff, hcount, hnodup⟩ := exec_run_main h
  have hmem : Dep.anon f ∈ d := (hmemIff (Dep.anon f)).mpr ⟨m, hm, hdep⟩
  have hc := hcount (Dep.anon f)
  rw [show evOf (Dep.anon f) = Ev.anon f from rfl] at hc
  rw [hc]
  exact List.count_eq_one_of_mem hnodup hmem

/-- Event predicate: this event invokes callable `f`, either anonymously
or as the stored action of the named target. -/
def callsOf (S : St) (f : Nat) : Ev → Bool
  | .anon g => decide (g = f)
  | .act n => decide (lookup? S.targets n = some (Act.call f))

/-- Concrete Builder scenario: one callable (token 7) registered as the
action of the two targets x and y, both dependencies of r. -/
def nX : Name := "x"

/-- Second target carrying the shared action callable. -/
def nY : Name := "y"

/-- Root name of the concrete scenarios. -/
def nR : Name := "r"

/-- Target with an anonymous dependency on callable 9. -/
def nT : Name := "t"

/-- Target whose registered action is callable 9. -/
def nZ : Name := "z"

/-- Registry where callable 7 is the action of both x and y. -/
def actTwo : St :=
  ⟨[(nX, Act.call 7), (nY, Act.call 7), (nR, Act.noop)],
   [(nR, [Dep.byName nX, Dep.byName nY])]⟩

/-- Registry where callable 9 is both an anonymous dependency of t and
the action of z, with t ordered before z under r. -/
def anonAct : St :=
  ⟨[(nT, Act.noop), (nZ, Act.call 9), (nR, Act.noop)],
   [(nR, [Dep.byName nT, Dep.byName nZ]), (nT, [Dep.anon 9])]⟩

/-- Claim C10, confirmed.  The visited set shares one identity space for
names and anonymous callables, but a target's own action is guarded only
by the target's name: (i) in any successful GraphRunner run, two distinct
reachable targets whose registered action is the same callable each fire
once, so the callable fires at least twice; (ii) a callable that already
ran as an anonymous dependency fires again as the action of a reachable
target; (iii) and (iv): the same behaviour exhibited on the Builder
variant on concrete registries. -/
theorem claim_C10 :
    (∀ (S : St) (root : Name) (fuel : Nat) (d : List Dep) (l : List Ev)
        (f : Nat) (n1 n2 : Name),
      GraphRunner.execute S root fuel = Res.ok d l →
      n1 ≠ n2 → Reaches S root n1 → Reaches S root n2 →
      lookup? S.targets n1 = some (Act.call f) →
      lookup? S.targets n2 = some (Act.call f) →
      l.count (Ev.act n1) = 1 ∧ l.count (Ev.act n2) = 1 ∧
        2 ≤ l.countP (callsOf S f)) ∧
    (∀ (S : St) (root : Name) (fuel : Nat) (d : List Dep) (l : List Ev)
        (f : Nat) (m n3 : Name),
      GraphRunner.execute S root fuel = Res.ok d l →
      Reaches S root m → Dep.anon f ∈ depsOf S m →
      Reaches S root n3 → lookup? S.targets n3 = some (Act.call f) →
      l.count (Ev.anon f) = 1 ∧ l.count (Ev.act n3) = 1 ∧
        2 ≤ l.countP (callsOf S f)) ∧
    (Builder.execute actTwo nR 10 =
        Res.ok [Dep.byName nX, Dep.byName nY, Dep.byName nR]
          [Ev.act nX, Ev.act nY, Ev.act nR] ∧
      List.countP (callsOf actTwo 7) [Ev.act nX, Ev.act nY, Ev.act nR] = 2) ∧
    (Builder.execute anonAct nR 10 =
        Res.ok [Dep.anon 9, Dep.byName nT, Dep.byName nZ, Dep.byName nR]
          [Ev.anon 9, Ev.act nT, Ev.act nZ, Ev.act nR] ∧
      List.countP (callsOf anonAct 9) [Ev.anon 9, Ev.act nT, Ev.act nZ, Ev.act nR] = 2) := by
  refine ⟨?_, ?_, by decide, by decide⟩
  · intro S root fuel d l f n1 n2 hrun hne h1 h2 ha1 ha2
    have hex := execute_ok_exec hrun
    have hc1 := run_count_act hex h1
    have hc2 := run_count_act hex h2
    refine ⟨hc1, hc2, ?_⟩
    have hp1 : callsOf S f (Ev.act n1) = true := by simp [callsOf, ha1]
    have hp2 : callsOf S f (Ev.act n2) = true := by simp [callsOf, ha2]
    have hne2 : Ev.act n1 ≠ Ev.act n2 := by simpa using hne
    have hb := two_le_countP (callsOf S f) (Ev.act n1) (Ev.act n2) hne2 hp1 hp2 l
    omega
  · intro S root fuel d l f m n3 hrun hm hdep h3 ha3
    have hex := execute_ok_exec hrun
    have hcA := run_count_anon hex hm hdep
    have hc3 := run_count_act hex h3
    refine ⟨hcA, hc3, ?_⟩
    have hp1 : callsOf S f (Ev.anon f) = true := by simp [callsOf]
    have hp2 : callsOf S f (Ev.act n3) = true := by simp [callsOf, ha3]
    have hne2 : Ev.anon f ≠ Ev.act n3 := by simp
    have hb := two_le_countP (callsOf S f) (Ev.anon f) (Ev.act n3) hne2 hp1 hp2 l
    omega

/-- Claim C10 witness: both universal parts applied to concrete
GraphRunner runs on `actTwo` and `anonAct`. -/
theorem claim_C10_witness :
    (List.count (Ev.act nX) [Ev.act nX, Ev.act nY, Ev.act nR] = 1 ∧
      List.count (Ev.act nY) [Ev.act nX, Ev.act nY, Ev.act nR] = 1 ∧
      2 ≤ List.countP (callsOf actTwo 7) [Ev.act nX, Ev.act nY, Ev.act nR]) ∧
    (List.count (Ev.anon 9) [Ev.anon 9, Ev.act nT, Ev.act nZ, Ev.act nR] = 1 ∧
      List.count (Ev.act nZ) [Ev.anon 9, Ev.act nT, Ev.act nZ, Ev.act nR] = 1 ∧
      2 ≤ List.countP (callsOf anonAct 9) [Ev.anon 9, Ev.act nT, Ev.act nZ, Ev.act nR]) :=
  ⟨claim_C10.1 actTwo nR 10
      [Dep.byName nR, Dep.byName nX, Dep.byName nY]
      [Ev.act nX, Ev.act nY, Ev.act nR] 7 nX nY
      (by decide) (by decide)
      (Reaches.step (Reaches.refl nR) (by decide))
      (Reaches.step (Reaches.refl nR) (by decide))
      (by decide) (by decide),
    claim_C10.2.1 anonAct nR 10
      [Dep.byName nR, Dep.byName nT, Dep.anon 9, Dep.byName nZ]
      [Ev.anon 9, Ev.act nT, Ev.act nZ, Ev.act nR] 9 nT nZ
      (by decide)
      (Reaches.step (Reaches.refl nR) (by decide)) (by decide)
      (Reaches.step (Reaches.refl nR) (by decide)) (by decide)⟩

/-! ## Claims C2, C3, C4: Builder bugs exhibited at concrete inputs -/

instance {ε α : Type} [DecidableEq ε] [DecidableEq α] : DecidableEq (Except ε α) := fun a b =>
  match a, b with
  | .ok x, .ok y => decidable_of_iff (x = y) (by simp)
  | .error x, .error y => decidable_of_iff (x = y) (by simp)
  | .ok _, .error _ => isFalse (by simp)
  | .error _, .ok _ => isFalse (by simp)

/-- Claim C2 at the failing input.  Builder._add_dep tests `dep not in
self._deps` (the dict of KEYS) instead of the edge list, so a second
addDependency(A, B) appends a duplicate edge; GraphRunner._add_dep, which
tests the edge list, leaves it unchanged. -/
theorem claim_C2_eval :
    Builder.depends init0 nA (PyDeps.pstr nB) =
      Except.ok ⟨[], [(nA, [Dep.byName nB])]⟩ ∧
    Builder.depends ⟨[], [(nA, [Dep.byName nB])]⟩ nA (PyDeps.pstr nB) =
      Except.ok ⟨[], [(nA, [Dep.byName nB, Dep.byName nB])]⟩ ∧
    GraphRunner.depends ⟨[], [(nA, [Dep.byName nB])]⟩ nA (PyDeps.pstr nB) =
      Except.ok ⟨[], [(nA, [Dep.byName nB])]⟩ := by decide

/-- First dependency target of the shared-callable scenarios. -/
def nT1 : Name := "t1"

/-- Second dependency target of the shared-callable scenario. -/
def nT2 : Name := "t2"

/-- Acyclic registry in which anonymous callable 0 is declared as a
dependency of both t1 and t2, and r depends on t1 and t2. -/
def dagShared : St :=
  ⟨[(nR, Act.noop), (nT1, Act.noop), (nT2, Act.noop)],
   [(nR, [Dep.byName nT1, Dep.byName nT2]), (nT1, [Dep.anon 0]), (nT2, [Dep.anon 0])]⟩

/-- Claim C3 at the failing input.  On the acyclic graph `dagShared`,
Builder.execute aborts with a KeyError (the already-invoked callable is
fed back into _execute as a name) instead of completing the topological
run; GraphRunner completes it, invoking every reachable action once. -/
theorem claim_C3_eval :
    Builder.execute dagShared nR 10 = Res.err (Err.unknownTarget (Dep.anon 0)) ∧
    GraphRunner.execute dagShared nR 10 =
      Res.ok [Dep.byName nR, Dep.byName nT1, Dep.anon 0, Dep.byName nT2]
        [Ev.anon 0, Ev.act nT1, Ev.act nT2, Ev.act nR] := by decide

/-- Registry in which anonymous callable 5 is reachable twice from r:
directly and through t1. -/
def dup2 : St :=
  ⟨[(nR, Act.noop), (nT1, Act.noop)],
   [(nR, [Dep.anon 5, Dep.byName nT1]), (nT1, [Dep.anon 5])]⟩

/-- Claim C4 at the failing input.  The callable 5 reachable via two paths
is invoked once and then Builder raises KeyError on the second encounter;
GraphRunner de-duplicates it and finishes. -/
theorem claim_C4_eval :
    Builder.execute dup2 nR 10 = Res.err (Err.unknownTarget (Dep.anon 5)) ∧
    GraphRunner.execute dup2 nR 10 =
      Res.ok [Dep.byName nR, Dep.anon 5, Dep.byName nT1]
        [Ev.anon 5, Ev.act nT1, Ev.act nR] := by decide

/-! ## Claim C5 -/

/-- Claim C5, confirmed.  execute on an unregistered name raises
UnknownTargetError in both variants; addDependency with a by-name
reference to a never-defined name succeeds at declaration time; and when
the traversal looks such a name up, both variants raise UnknownTargetError
at execution time. -/
theorem claim_C5 :
    (∀ (S : St) (name : Name) (fuel : Nat), name ∉ keysOf S.targets →
      GraphRunner.execute S name fuel =
        Res.err (Err.unknownTarget (Dep.byName name))) ∧
    (∀ (S : St) (name : Name) (fuel : Nat), name ∉ keysOf S.targets →
      Builder.execute S name fuel =
        Res.err (Err.unknownTarget (Dep.byName name))) ∧
    (∀ (S : St) (name depname : Name), depname ∉ keysOf S.targets →
      ∃ S2, GraphRunner.depends S name (PyDeps.pstr depname) = Except.ok S2) ∧
    (∀ (S : St) (name depname : Name), depname ∉ keysOf S.targets →
      ∃ S2, Builder.depends S name (PyDeps.pstr depname) = Except.ok S2) ∧
    (∀ (S : St) (s : Name) (done : List Dep) (fuel : Nat),
      s ∉ keysOf S.targets → s ∉ keysOf S.deps → Dep.byName s ∉ done →
      GraphRunner.exec S (fuel + 1) s done =
        Res.err (Err.unknownTarget (Dep.byName s))) ∧
    (∀ (S : St) (s : Name) (done : List Dep) (fuel : Nat),
      s ∉ keysOf S.targets → s ∉ keysOf S.deps →
      Builder.exec S (fuel + 1) (Dep.byName s) done =
        Res.err (Err.unknownTarget (Dep.byName s))) := by
  refine ⟨?_, ?_, ?_, ?_, ?_, ?_⟩
  · intro S name fuel h
    simp [GraphRunner.execute, h]
  · intro S name fuel h
    simp [Builder.execute, h]
  · intro S name depname _
    exact ⟨_, rfl⟩
  · intro S name depname _
    exact ⟨_, rfl⟩
  · intro S s done fuel h1 h2 h3
    have hds : depsOf S s = [] := by simp [depsOf, lookup?_eq_none h2]
    have hts : lookup? S.targets s = none := lookup?_eq_none h1
    simp [GraphRunner.exec, h3, hds, GraphRunner.execList, hts]
  · intro S s done fuel h1 h2
    have hds : depsOf S s = [] := by simp [depsOf, lookup?_eq_none h2]
    have hts : lookup? S.targets s = none := lookup?_eq_none h1
    simp [Builder.exec, hds, Builder.execList, hts]

/-- Registry with the single registered target t, used to witness C5. -/
def regT : St := ⟨[(nT, Act.noop)], []⟩

/-- Claim C5 witness: each part of the theorem applied to `regT` and the
unregistered name z. -/
theorem claim_C5_witness :
    GraphRunner.execute regT nZ 3 = Res.err (Err.unknownTarget (Dep.byName nZ)) ∧
    Builder.execute regT nZ 3 = Res.err (Err.unknownTarget (Dep.byName nZ)) ∧
    (∃ S2, GraphRunner.depends regT nT (PyDeps.pstr nZ) = Except.ok S2) ∧
    (∃ S2, Builder.depends regT nT (PyDeps.pstr nZ) = Except.ok S2) ∧
    GraphRunner.exec regT 4 nZ [] = Res.err (Err.unknownTarget (Dep.byName nZ)) ∧
    Builder.exec regT 4 (Dep.byName nZ) [] =
      Res.err (Err.unknownTarget (Dep.byName nZ)) :=
  ⟨claim_C5.1 regT nZ 3 (by decide),
   claim_C5.2.1 regT nZ 3 (by decide),
   claim_C5.2.2.1 regT nT nZ (by decide),
   claim_C5.2.2.2.1 regT nT nZ (by decide),
   claim_C5.2.2.2.2.1 regT nZ [] 3 (by decide) (by decide) (by decide),
   claim_C5.2.2.2.2.2 regT nZ [] 3 (by decide) (by decide)⟩

/-! ## Claim C6 -/

/-- Claim C6, corrected.  defineTarget(name, action) raises
InvalidNameError exactly when the name contains the space character;
otherwise it registers the action (other whitespace such as tab or
newline is accepted).  Both variants behave identically. -/
theorem claim_C6 :
    (∀ (S : St) (name : Name) (action : Act), hasSpace name = true →
      Builder.target S name action (PyDeps.plist []) =
        Except.error Err.invalidName ∧
      GraphRunner.target S name action (PyDeps.plist []) =
        Except.error Err.invalidName) ∧
    (∀ (S : St) (name : Name) (action : Act), hasSpace name = false →
      Builder.target S name action (PyDeps.plist []) =
        Except.ok { S with targets := upsert S.targets name action } ∧
      GraphRunner.target S name action (PyDeps.plist []) =
        Except.ok { S with targets := upsert S.targets name action }) := by
  constructor
  · intro S name action h
    constructor <;> simp [Builder.target, GraphRunner.target, h]
  · intro S name action h
    constructor <;>
      simp [Builder.target, GraphRunner.target, h, Builder.depends,
        GraphRunner.depends, Builder.dependsList, GraphRunner.dependsList]

/-- A name containing a tab, which Python counts as whitespace but the
source's space-only check accepts. -/
def nTab : Name := "a\tb"

/-- Claim C6 counterexample: the name "a<TAB>b" contains a whitespace
character, yet defineTarget succeeds and registers it in both variants,
refuting "raises InvalidNameError whenever name contains any whitespace
character". -/
theorem claim_C6_counterexample :
    (∃ c : Char, c ∈ nTab.data ∧ c.isWhitespace = true) ∧
    Builder.target init0 nTab Act.noop (PyDeps.plist []) =
      Except.ok ⟨[(nTab, Act.noop)], []⟩ ∧
    GraphRunner.target init0 nTab Act.noop (PyDeps.plist []) =
      Except.ok ⟨[(nTab, Act.noop)], []⟩ :=
  ⟨⟨'\t', by decide, by decide⟩, by decide, by decide⟩

/-- Name with a space, rejected at definition time. -/
def nSpace : Name := "a b"

/-- Whitespace-free name, accepted at definition time. -/
def nPlain : Name := "ab"

/-- Claim C6 witness: the corrected theorem applied to the names "a b"
(rejected, nothing registered) and "ab" (registered). -/
theorem claim_C6_witness :
    (Builder.target init0 nSpace Act.noop (PyDeps.plist []) =
        Except.error Err.invalidName ∧
      GraphRunner.target init0 nSpace Act.noop (PyDeps.plist []) =
        Except.error Err.invalidName) ∧
    (Builder.target init0 nPlain Act.noop (PyDeps.plist []) =
        Except.ok { init0 with targets := upsert init0.targets nPlain Act.noop } ∧
      GraphRunner.target init0 nPlain Act.noop (PyDeps.plist []) =
        Except.ok { init0 with targets := upsert init0.targets nPlain Act.noop }) :=
  ⟨claim_C6.1 init0 nSpace Act.noop (by decide),
   claim_C6.2 init0 nPlain Act.noop (by decide)⟩

/-! ## Claim C7: edge bookkeeping lemmas -/

theorem lookup?_append {α : Type} : ∀ (l1 l2 : List (Name × α)) (n : Name),
    lookup? (l1 ++ l2) n =
      match lookup? l1 n with
      | some v => some v
      | none => lookup? l2 n := by
  intro l1 l2 n
  induction l1 with
  | nil => rfl
  | cons p rest ih => by_cases he : p.1 = n <;> simp [lookup?, he, ih]

theorem lookup?_upsert_self {α : Type} : ∀ (l : List (Name × α)) (n : Name) (a : α),
    lookup? (upsert l n a) n = some a := by
  intro l n a
  induction l with
  | nil => simp [upsert, lookup?]
  | cons p rest ih =>
    by_cases he : p.1 = n
    · simp [upsert, he, lookup?]
    · simp [upsert, he, lookup?, ih]

theorem lookup?_upsert_ne {α : Type} : ∀ (l : List (Name × α)) (n m : Name) (a : α),
    m ≠ n → lookup? (upsert l n a) m = lookup? l m := by
  intro l n m a hne
  have h2 : ¬ (n = m) := fun he => hne he.symm
  induction l with
  | nil => simp [upsert, lookup?, h2]
  | cons p rest ih =>
    obtain ⟨k, v⟩ := p
    by_cases he : k = n
    · subst he
      simp [upsert, lookup?, h2]
    · simp [upsert, he, lookup?, ih]

theorem keysOf_upsert {α : Type} : ∀ (l : List (Name × α)) (n : Name) (a : α) (x : Name),
    x ∈ keysOf (upsert l n a) → x ∈ keysOf l ∨ x = n := by
  intro l n a x
  induction l with
  | nil => simp [upsert, keysOf]
  | cons p rest ih =>
    by_cases he : p.1 = n
    · simp only [upsert, he, if_true, keysOf, List.map_cons, List.mem_cons]
      rintro (rfl | hx)
      · exact Or.inr rfl
      · exact Or.inl (Or.inr hx)
    · simp only [upsert, he, if_false, keysOf, List.map_cons, List.mem_cons]
      rintro (rfl | hx)
      · exact Or.inl (Or.inl rfl)
      · rcases ih hx with h | h
        · exact Or.inl (Or.inr h)
        · exact Or.inr h

/-- Adding a not-yet-present dependency in GraphRunner appends exactly
that edge to the name's edge list. -/
theorem addDepG_fresh {S : St} {name : Name} {dep : Dep}
    (h : dep ∉ depsOf S name) :
    depsOf (GraphRunner.addDep S name dep) name = depsOf S name ++ [dep] := by
  unfold GraphRunner.addDep
  cases hL : lookup? S.deps name with
  | none =>
    have hd0 : depsOf S name = [] := by simp [depsOf, hL]
    simp only [depsOf, hd0, List.nil_append]
    rw [lookup?_append]
    simp [hL, lookup?]
  | some l =>
    have hd0 : depsOf S name = l := by simp [depsOf, hL]
    rw [hd0] at h
    have hu := lookup?_upsert_self S.deps name (l ++ [dep])
    simp [depsOf, h, hu, hL]

/-- Builder's key-membership test: the dep is not a key of the deps dict
(always true of anonymous callables). -/
def notKeyB (S : St) : Dep → Bool
  | Dep.byName s => decide (s ∉ keysOf S.deps)
  | Dep.anon _ => true

/-- Builder._add_dep appends the edge whenever the dep is not a key of
the deps dict, duplicates in the edge list notwithstanding. -/
theorem addDepB_applies {S : St} {name : Name} {dep : Dep}
    (h : notKeyB S dep = true) :
    depsOf (Builder.addDep S name dep) name = depsOf S name ++ [dep] := by
  cases dep with
  | byName s =>
    have hs : s ∉ keysOf S.deps := by simpa [notKeyB] using h
    unfold Builder.addDep
    cases hL : lookup? S.deps name with
    | none => simp [depsOf, hL, lookup?_append, lookup?]
    | some l =>
      have hu := lookup?_upsert_self S.deps name (l ++ [Dep.byName s])
      simp [depsOf, hs, hu, hL]
  | anon f =>
    unfold Builder.addDep
    cases hL : lookup? S.deps name with
    | none => simp [depsOf, hL, lookup?_append, lookup?]
    | some l =>
      have hu := lookup?_upsert_self S.deps name (l ++ [Dep.anon f])
      simp [depsOf, hu, hL]

/-- Builder._add_dep only ever adds `name` as a new key. -/
theorem addDepB_keys {S : St} {name : Name} {dep : Dep} :
    ∀ x, x ∈ keysOf (Builder.addDep S name dep).deps → x ∈ keysOf S.deps ∨ x = name := by
  intro x
  unfold Builder.addDep
  cases hL : lookup? S.deps name with
  | none =>
    intro hx
    simp only [keysOf, List.map_append, List.mem_append] at hx
    rcases hx with hx | hx
    · exact Or.inl hx
    · simp at hx
      exact Or.inr hx
  | some l =>
    by_cases hk : (match dep with
        | Dep.byName s => decide (s ∈ keysOf S.deps)
        | Dep.anon _ => false) = true
    · simp only [hk, if_true]
      exact fun hx => Or.inl hx
    · simp only [hk, if_false]
      exact keysOf_upsert _ _ _ x

/-- Folding fresh distinct tokens through GraphRunner._add_dep appends one
by-name edge per token. -/
theorem foldG_tokens (name : Name) : ∀ (ts : List Name) (S : St),
    (∀ t ∈ ts, Dep.byName t ∉ depsOf S name) → ts.Nodup →
    depsOf (ts.foldl (fun acc t => GraphRunner.addDep acc name (Dep.byName t)) S) name
      = depsOf S name ++ ts.map Dep.byName := by
  intro ts
  induction ts with
  | nil => intro S _ _; simp
  | cons t rest ih =>
    intro S hfresh hnd
    simp only [List.foldl_cons, List.map_cons]
    have h1 : depsOf (GraphRunner.addDep S name (Dep.byName t)) name
        = depsOf S name ++ [Dep.byName t] :=
      addDepG_fresh (hfresh t (List.mem_cons_self _ _))
    rw [ih (GraphRunner.addDep S name (Dep.byName t)) ?_ (List.nodup_cons.mp hnd).2]
    · rw [h1]
      simp
    · intro u hu
      rw [h1]
      simp only [List.mem_append, List.mem_singleton, Dep.byName.injEq]
      push_neg
      refine ⟨hfresh u (List.mem_cons_of_mem _ hu), ?_⟩
      intro he
      exact (List.nodup_cons.mp hnd).1 (he ▸ hu)

/-- Folding tokens through Builder._add_dep appends one by-name edge per
token, provided no token is already a key of the deps dict nor the source
name itself. -/
theorem foldB_tokens (name : Name) : ∀ (ts : List Name) (S : St),
    (∀ t ∈ ts, t ∉ keysOf S.deps ∧ t ≠ name) →
    depsOf (ts.foldl (fun acc t => Builder.addDep acc name (Dep.byName t)) S) name
      = depsOf S name ++ ts.map Dep.byName := by
  intro ts
  induction ts with
  | nil => intro S _; simp
  | cons t rest ih =>
    intro S hts
    simp only [List.foldl_cons, List.map_cons]
    have h1 : depsOf (Builder.addDep S name (Dep.byName t)) name
        = depsOf S name ++ [Dep.byName t] := by
      apply addDepB_applies
      simp [notKeyB, (hts t (List.mem_cons_self _ _)).1]
    rw [ih (Builder.addDep S name (Dep.byName t)) ?_]
    · rw [h1]
      simp
    · intro u hu
      refine ⟨?_, (hts u (List.mem_cons_of_mem _ hu)).2⟩
      intro hk
      rcases addDepB_keys u hk with h | h
      · exact (hts u (List.mem_cons_of_mem _ hu)).1 h
      · exact (hts u (List.mem_cons_of_mem _ hu)).2 h

theorem dependsListG_foldlM (name : Name) : ∀ (l : List PyDeps) (S : St),
    GraphRunner.dependsList S name l =
      l.foldlM (fun acc dep => GraphRunner.depends acc name dep) S := by
  intro l
  induction l with
  | nil => intro S; rfl
  | cons d rest ih =>
    intro S
    rw [List.foldlM_cons]
    cases hd : GraphRunner.depends S name d with
    | ok S1 =>
      simp only [GraphRunner.dependsList, hd, ih, Bind.bind, Except.bind]
    | error e =>
      simp only [GraphRunner.dependsList, hd, Bind.bind, Except.bind]

theorem dependsListB_foldlM (name : Name) : ∀ (l : List PyDeps) (S : St),
    Builder.dependsList S name l =
      l.foldlM (fun acc dep => Builder.depends acc name dep) S := by
  intro l
  induction l with
  | nil => intro S; rfl
  | cons d rest ih =>
    intro S
    rw [List.foldlM_cons]
    cases hd : Builder.depends S name d with
    | ok S1 =>
      simp only [Builder.dependsList, hd, ih, Bind.bind, Except.bind]
    | error e =>
      simp only [Builder.dependsList, hd, Bind.bind, Except.bind]

/-- Claim C7, confirmed.  addDependency dispatches on the shape of its
second argument: a callable adds one anonymous edge; a list is processed
element-wise recursively; a string is split on whitespace and adds one
by-name edge per token (stated for fresh tokens, so the separate
de-duplication concern of C2 does not interfere); any other shape raises
InvalidDependencyTypeError and adds no edges. -/
theorem claim_C7 :
    (∀ (S : St) (name : Name) (f : Nat), Dep.anon f ∉ depsOf S name →
      ∃ S2, GraphRunner.depends S name (PyDeps.pcall f) = Except.ok S2 ∧
        depsOf S2 name = depsOf S name ++ [Dep.anon f]) ∧
    (∀ (S : St) (name : Name) (f : Nat),
      ∃ S2, Builder.depends S name (PyDeps.pcall f) = Except.ok S2 ∧
        depsOf S2 name = depsOf S name ++ [Dep.anon f]) ∧
    (∀ (S : St) (name : Name) (l : List PyDeps),
      GraphRunner.depends S name (PyDeps.plist l) =
        l.foldlM (fun acc dep => GraphRunner.depends acc name dep) S) ∧
    (∀ (S : St) (name : Name) (l : List PyDeps),
      Builder.depends S name (PyDeps.plist l) =
        l.foldlM (fun acc dep => Builder.depends acc name dep) S) ∧
    (∀ (S : St) (name : Name) (s : String),
      (pyTokens s).Nodup → (∀ t ∈ pyTokens s, Dep.byName t ∉ depsOf S name) →
      ∃ S2, GraphRunner.depends S name (PyDeps.pstr s) = Except.ok S2 ∧
        depsOf S2 name = depsOf S name ++ (pyTokens s).map Dep.byName) ∧
    (∀ (S : St) (name : Name) (s : String),
      (∀ t ∈ pyTokens s, t ∉ keysOf S.deps ∧ t ≠ name) →
      ∃ S2, Builder.depends S name (PyDeps.pstr s) = Except.ok S2 ∧
        depsOf S2 name = depsOf S name ++ (pyTokens s).map Dep.byName) ∧
    (∀ (S : St) (name : Name),
      GraphRunner.depends S name PyDeps.pother = Except.error Err.invalidDepType ∧
      Builder.depends S name PyDeps.pother = Except.error Err.invalidDepType) := by
  refine ⟨?_, ?_, ?_, ?_, ?_, ?_, ?_⟩
  · intro S name f h
    exact ⟨_, rfl, addDepG_fresh h⟩
  · intro S name f
    exact ⟨_, rfl, addDepB_applies (by simp [notKeyB])⟩
  · intro S name l
    rw [show GraphRunner.depends S name (PyDeps.plist l)
        = GraphRunner.dependsList S name l from rfl]
    exact dependsListG_foldlM name l S
  · intro S name l
    rw [show Builder.depends S name (PyDeps.plist l)
        = Builder.dependsList S name l from rfl]
    exact dependsListB_foldlM name l S
  · intro S name s hnd hfresh
    exact ⟨_, rfl, foldG_tokens name (pyTokens s) S hfresh hnd⟩
  · intro S name s hts
    exact ⟨_, rfl, foldB_tokens name (pyTokens s) S hts⟩
  · intro S name
    exact ⟨rfl, rfl⟩

/-- String argument with two whitespace-separated tokens, for the C7
witness. -/
def strUV : String := "u  v"

/-- Claim C7 witness: every hypothesis-bearing part applied to concrete
inputs on the empty registry. -/
theorem claim_C7_witness :
    (∃ S2, GraphRunner.depends init0 nA (PyDeps.pcall 3) = Except.ok S2 ∧
      depsOf S2 nA = depsOf init0 nA ++ [Dep.anon 3]) ∧
    (∃ S2, Builder.depends init0 nA (PyDeps.pcall 3) = Except.ok S2 ∧
      depsOf S2 nA = depsOf init0 nA ++ [Dep.anon 3]) ∧
    (∃ S2, GraphRunner.depends init0 nA (PyDeps.pstr strUV) = Except.ok S2 ∧
      depsOf S2 nA = depsOf init0 nA ++ (pyTokens strUV).map Dep.byName) ∧
    (∃ S2, Builder.depends init0 nA (PyDeps.pstr strUV) = Except.ok S2 ∧
      depsOf S2 nA = depsOf init0 nA ++ (pyTokens strUV).map Dep.byName) ∧
    (GraphRunner.depends init0 nA PyDeps.pother = Except.error Err.invalidDepType ∧
      Builder.depends init0 nA PyDeps.pother = Except.error Err.invalidDepType) :=
  ⟨claim_C7.1 init0 nA 3 (by decide),
   claim_C7.2.1 init0 nA 3,
   claim_C7.2.2.2.2.1 init0 nA strUV (by decide) (by decide),
   claim_C7.2.2.2.2.2.1 init0 nA strUV (by decide),
   claim_C7.2.2.2.2.2.2 init0 nA⟩

/-! ## Claim C8 -/

/-- Apply a sequence of two-argument defineTarget calls on GraphRunner. -/
def runTargetsG (S : St) : List (Name × Act) → Except Err St
  | [] => .ok S
  | c :: rest =>
    match GraphRunner.target S c.1 c.2 (PyDeps.plist []) with
    | .ok S1 => runTargetsG S1 rest
    | .error e => .error e

/-- Apply a sequence of two-argument defineTarget calls on Builder. -/
def runTargetsB (S : St) : List (Name × Act) → Except Err St
  | [] => .ok S
  | c :: rest =>
    match Builder.target S c.1 c.2 (PyDeps.plist []) with
    | .ok S1 => runTargetsB S1 rest
    | .error e => .error e

theorem targetNilG (S : St) (n : Name) (a : Act) :
    GraphRunner.target S n a (PyDeps.plist []) =
      if hasSpace n then Except.error Err.invalidName
      else Except.ok { S with targets := upsert S.targets n a } := by
  by_cases h : hasSpace n = true <;>
    simp [GraphRunner.target, h, GraphRunner.depends, GraphRunner.dependsList]

theorem targetNilB (S : St) (n : Name) (a : Act) :
    Builder.target S n a (PyDeps.plist []) =
      if hasSpace n then Except.error Err.invalidName
      else Except.ok { S with targets := upsert S.targets n a } := by
  by_cases h : hasSpace n = true <;>
    simp [Builder.target, h, Builder.depends, Builder.dependsList]

theorem runTargetsB_eq : ∀ (calls : List (Name × Act)) (S : St),
    runTargetsB S calls = runTargetsG S calls := by
  intro calls
  induction calls with
  | nil => intro S; rfl
  | cons c rest ih =>
    intro S
    simp only [runTargetsB, runTargetsG, targetNilG, targetNilB]
    by_cases h : hasSpace c.1 = true <;> simp [h, ih]

theorem keysOf_upsert_mem {α : Type} : ∀ (l : List (Name × α)) (n : Name) (a : α)
    (x : Name), x ∈ keysOf (upsert l n a) ↔ x ∈ keysOf l ∨ x = n := by
  intro l n a x
  induction l with
  | nil => simp [upsert, keysOf]
  | cons p rest ih =>
    obtain ⟨k, v⟩ := p
    by_cases he : k = n
    · subst he
      simp [upsert, keysOf]
      tauto
    · simp only [upsert, he, if_false, keysOf, List.map_cons, List.mem_cons]
      rw [show (x ∈ List.map Prod.fst (upsert rest n a)) ↔
          (x ∈ keysOf (upsert rest n a)) from Iff.rfl]
      rw [ih]
      simp [keysOf]
      tauto

theorem keysOf_upsert_nodup {α : Type} : ∀ (l : List (Name × α)) (n : Name) (a : α),
    (keysOf l).Nodup → (keysOf (upsert l n a)).Nodup := by
  intro l n a
  induction l with
  | nil => intro _; simp [upsert, keysOf]
  | cons p rest ih =>
    obtain ⟨k, v⟩ := p
    intro hnd
    simp only [keysOf, List.map_cons, List.nodup_cons] at hnd
    by_cases he : k = n
    · subst he
      have hup : upsert ((k, v) :: rest) k a = (k, a) :: rest := by simp [upsert]
      rw [hup]
      simp only [keysOf, List.map_cons, List.nodup_cons]
      exact hnd
    · simp only [upsert, he, if_false, keysOf, List.map_cons, List.nodup_cons]
      refine ⟨?_, ih hnd.2⟩
      intro hk
      rcases (keysOf_upsert_mem rest n a k).mp hk with h | h
      · exact hnd.1 h
      · exact he h

theorem runTargetsG_keys : ∀ (calls : List (Name × Act)) (S : St),
    (∀ c ∈ calls, hasSpace c.1 = false) →
    ∃ S2, runTargetsG S calls = Except.ok S2 ∧
      ((keysOf S.targets).Nodup → (keysOf S2.targets).Nodup) ∧
      (∀ x, x ∈ keysOf S2.targets ↔ x ∈ keysOf S.targets ∨ x ∈ calls.map Prod.fst) := by
  intro calls
  induction calls with
  | nil =>
    intro S _
    exact ⟨S, rfl, id, by simp⟩
  | cons c rest ih =>
    intro S hok
    have hc : hasSpace c.1 = false := hok c (List.mem_cons_self _ _)
    have hstep : GraphRunner.target S c.1 c.2 (PyDeps.plist []) =
        Except.ok { S with targets := upsert S.targets c.1 c.2 } := by
      rw [targetNilG]
      simp [hc]
    obtain ⟨S2, hrun, hnd, hmem⟩ :=
      ih { S with targets := upsert S.targets c.1 c.2 }
        (fun d hd => hok d (List.mem_cons_of_mem _ hd))
    refine ⟨S2, ?_, ?_, ?_⟩
    · simp only [runTargetsG, hstep]
      exact hrun
    · intro h0
      exact hnd (keysOf_upsert_nodup _ _ _ h0)
    · intro x
      rw [hmem x]
      have : x ∈ keysOf ({ S with targets := upsert S.targets c.1 c.2 }).targets ↔
          x ∈ keysOf S.targets ∨ x = c.1 := keysOf_upsert_mem _ _ _ x
      rw [this]
      simp only [List.map_cons, List.mem_cons]
      tauto

/-- Claim C8, confirmed.  After any sequence of defineTarget calls with
space-free names, listTargets returns a sorted, duplicate-free list whose
members are exactly the registered names, in both variants. -/
theorem claim_C8 :
    (∀ (calls : List (Name × Act)), (∀ c ∈ calls, hasSpace c.1 = false) →
      ∃ S2, runTargetsG init0 calls = Except.ok S2 ∧
        List.Sorted (· ≤ ·) (GraphRunner.getTargets S2) ∧
        (GraphRunner.getTargets S2).Nodup ∧
        (∀ x, x ∈ GraphRunner.getTargets S2 ↔ x ∈ calls.map Prod.fst)) ∧
    (∀ (calls : List (Name × Act)), (∀ c ∈ calls, hasSpace c.1 = false) →
      ∃ S2, runTargetsB init0 calls = Except.ok S2 ∧
        List.Sorted (· ≤ ·) (Builder.getTargets S2) ∧
        (Builder.getTargets S2).Nodup ∧
        (∀ x, x ∈ Builder.getTargets S2 ↔ x ∈ calls.map Prod.fst)) := by
  have main : ∀ (calls : List (Name × Act)), (∀ c ∈ calls, hasSpace c.1 = false) →
      ∃ S2, runTargetsG init0 calls = Except.ok S2 ∧
        List.Sorted (· ≤ ·) (GraphRunner.getTargets S2) ∧
        (GraphRunner.getTargets S2).Nodup ∧
        (∀ x, x ∈ GraphRunner.getTargets S2 ↔ x ∈ calls.map Prod.fst) := by
    intro calls hok
    obtain ⟨S2, hrun, hnd, hmem⟩ := runTargetsG_keys calls init0 hok
    have hperm := List.perm_insertionSort ((· ≤ ·) : Name → Name → Prop) (keysOf S2.targets)
    refine ⟨S2, hrun, ?_, ?_, ?_⟩
    · exact List.sorted_insertionSort _ _
    · exact hperm.nodup_iff.mpr (hnd (by simp [init0, keysOf]))
    · intro x
      rw [show GraphRunner.getTargets S2 =
          List.insertionSort (· ≤ ·) (keysOf S2.targets) from rfl]
      rw [hperm.mem_iff, hmem x]
      simp [init0, keysOf]
  refine ⟨main, ?_⟩
  intro calls hok
  obtain ⟨S2, hrun, hs, hn, hm⟩ := main calls hok
  exact ⟨S2, by rw [runTargetsB_eq]; exact hrun, hs, hn, hm⟩

/-- The c, a, b call sequence of the claim. -/
def callsCAB : List (Name × Act) :=
  [("c", Act.noop), ("a", Act.noop), ("b", Act.noop)]

/-- Claim C8 witness: the theorem applied to defining c, then a, then b. -/
theorem claim_C8_witness :
    (∃ S2, runTargetsG init0 callsCAB = Except.ok S2 ∧
      List.Sorted (· ≤ ·) (GraphRunner.getTargets S2) ∧
      (GraphRunner.getTargets S2).Nodup ∧
      (∀ x, x ∈ GraphRunner.getTargets S2 ↔ x ∈ callsCAB.map Prod.fst)) ∧
    (∃ S2, runTargetsB init0 callsCAB = Except.ok S2 ∧
      List.Sorted (· ≤ ·) (Builder.getTargets S2) ∧
      (Builder.getTargets S2).Nodup ∧
      (∀ x, x ∈ Builder.getTargets S2 ↔ x ∈ callsCAB.map Prod.fst)) :=
  ⟨claim_C8.1 callsCAB (by decide), claim_C8.2 callsCAB (by decide)⟩

/-! ## Claim C9 -/

/-- Frame property of the dependency-declaration operation relative to a
source name: the targets dict is untouched, other names' edge lists are
untouched, and the name's own edge list is only ever appended to. -/
def Frame (name : Name) (S S2 : St) : Prop :=
  S2.targets = S.targets ∧
  (∀ m, m ≠ name → lookup? S2.deps m = lookup? S.deps m) ∧
  ∃ ext, depsOf S2 name = depsOf S name ++ ext

theorem Frame.refl' {name : Name} {S : St} : Frame name S S :=
  ⟨rfl, fun _ _ => rfl, [], by simp⟩

theorem Frame.join {name : Name} {S1 S2 S3 : St} (h1 : Frame name S1 S2)
    (h2 : Frame name S2 S3) : Frame name S1 S3 := by
  obtain ⟨ht1, hd1, e1, he1⟩ := h1
  obtain ⟨ht2, hd2, e2, he2⟩ := h2
  refine ⟨ht2.trans ht1, fun m hm => (hd2 m hm).trans (hd1 m hm), e1 ++ e2, ?_⟩
  rw [he2, he1, List.append_assoc]

theorem addDepG_frame (S : St) (name : Name) (dep : Dep) :
    Frame name S (GraphRunner.addDep S name dep) := by
  unfold GraphRunner.addDep
  cases hL : lookup? S.deps name with
  | none =>
    refine ⟨rfl, ?_, [dep], ?_⟩
    · intro m hm
      have hnm : ¬ (name = m) := fun h => hm h.symm
      rw [show ({ S with deps := S.deps ++ [(name, [dep])] } : St).deps
          = S.deps ++ [(name, [dep])] from rfl]
      rw [lookup?_append]
      cases lookup? S.deps m <;> simp [lookup?, hnm]
    · simp [depsOf, hL, lookup?_append, lookup?]
  | some l =>
    by_cases hd : dep ∈ l
    · simp only [hd, if_pos]
      exact Frame.refl'
    · simp only [hd, if_false]
      refine ⟨rfl, ?_, [dep], ?_⟩
      · intro m hm
        exact lookup?_upsert_ne _ _ _ _ hm
      · have hu := lookup?_upsert_self S.deps name (l ++ [dep])
        simp [depsOf, hu, hL]

theorem addDepB_frame (S : St) (name : Name) (dep : Dep) :
    Frame name S (Builder.addDep S name dep) := by
  unfold Builder.addDep
  cases hL : lookup? S.deps name with
  | none =>
    refine ⟨rfl, ?_, [dep], ?_⟩
    · intro m hm
      have hnm : ¬ (name = m) := fun h => hm h.symm
      rw [show ({ S with deps := S.deps ++ [(name, [dep])] } : St).deps
          = S.deps ++ [(name, [dep])] from rfl]
      rw [lookup?_append]
      cases lookup? S.deps m <;> simp [lookup?, hnm]
    · simp [depsOf, hL, lookup?_append, lookup?]
  | some l =>
    by_cases hk : (match dep with
        | Dep.byName s => decide (s ∈ keysOf S.deps)
        | Dep.anon _ => false) = true
    · simp only [hk, if_pos]
      exact Frame.refl'
    · simp only [hk, if_false]
      refine ⟨rfl, ?_, [dep], ?_⟩
      · intro m hm
        exact lookup?_upsert_ne _ _ _ _ hm
      · have hu := lookup?_upsert_self S.deps name (l ++ [dep])
        simp [depsOf, hu, hL]

theorem foldl_frame {name : Name} (step : St → Name → St)
    (hstep : ∀ S t, Frame name S (step S t)) :
    ∀ (ts : List Name) (S : St), Frame name S (ts.foldl step S) := by
  intro ts
  induction ts with
  | nil => intro S; exact Frame.refl'
  | cons t rest ih =>
    intro S
    simp only [List.foldl_cons]
    exact (hstep S t).join (ih (step S t))

theorem pydeps_sizeOf_mem : ∀ {x : PyDeps} {l : List PyDeps},
    x ∈ l → sizeOf x < sizeOf l := by
  intro x l h
  induction h with
  | head rest => simp only [List.cons.sizeOf_spec]; omega
  | tail b hmem ih => simp only [List.cons.sizeOf_spec]; omega

theorem dependsG_frame (name : Name) : ∀ (k : Nat) (d : PyDeps) (S S2 : St),
    sizeOf d ≤ k → GraphRunner.depends S name d = Except.ok S2 →
    Frame name S S2 := by
  intro k
  induction k with
  | zero =>
    intro d S S2 hk
    exfalso
    cases d <;> simp at hk
  | succ k ih =>
    intro d S S2 hk h
    cases d with
    | pcall f =>
      simp only [GraphRunner.depends, Except.ok.injEq] at h
      subst h
      exact addDepG_frame S name (Dep.anon f)
    | pother => cases h
    | pstr s =>
      simp only [GraphRunner.depends, Except.ok.injEq] at h
      subst h
      exact foldl_frame _ (fun S0 t => addDepG_frame S0 name (Dep.byName t)) _ _
    | plist l =>
      rw [show GraphRunner.depends S name (PyDeps.plist l)
          = GraphRunner.dependsList S name l from rfl] at h
      have haux : ∀ (l2 : List PyDeps), (∀ x ∈ l2, sizeOf x ≤ k) →
          ∀ T T2, GraphRunner.dependsList T name l2 = Except.ok T2 →
          Frame name T T2 := by
        intro l2
        induction l2 with
        | nil =>
          intro _ T T2 hT
          rw [show GraphRunner.dependsList T name [] = Except.ok T from rfl] at hT
          simp only [Except.ok.injEq] at hT
          subst hT
          exact Frame.refl'
        | cons dd rest ihl =>
          intro hsz T T2 hT
          simp only [GraphRunner.dependsList] at hT
          cases hdd : GraphRunner.depends T name dd with
          | error e => rw [hdd] at hT; cases hT
          | ok T1 =>
            rw [hdd] at hT
            dsimp only at hT
            have f1 : Frame name T T1 :=
              ih dd T T1 (hsz dd (List.mem_cons_self _ _)) hdd
            have f2 : Frame name T1 T2 :=
              ihl (fun x hx => hsz x (List.mem_cons_of_mem _ hx)) T1 T2 hT
            exact f1.join f2
      apply haux l ?_ S S2 h
      intro x hx
      have h1 := pydeps_sizeOf_mem hx
      have h2 : sizeOf (PyDeps.plist l) ≤ k + 1 := hk
      simp only [PyDeps.plist.sizeOf_spec] at h2
      omega

theorem dependsB_frame (name : Name) : ∀ (k : Nat) (d : PyDeps) (S S2 : St),
    sizeOf d ≤ k → Builder.depends S name d = Except.ok S2 →
    Frame name S S2 := by
  intro k
  induction k with
  | zero =>
    intro d S S2 hk
    exfalso
    cases d <;> simp at hk
  | succ k ih =>
    intro d S S2 hk h
    cases d with
    | pcall f =>
      simp only [Builder.depends, Except.ok.injEq] at h
      subst h
      exact addDepB_frame S name (Dep.anon f)
    | pother => cases h
    | pstr s =>
      simp only [Builder.depends, Except.ok.injEq] at h
      subst h
      exact foldl_frame _ (fun S0 t => addDepB_frame S0 name (Dep.byName t)) _ _
    | plist l =>
      rw [show Builder.depends S name (PyDeps.plist l)
          = Builder.dependsList S name l from rfl] at h
      have haux : ∀ (l2 : List PyDeps), (∀ x ∈ l2, sizeOf x ≤ k) →
          ∀ T T2, Builder.dependsList T name l2 = Except.ok T2 →
          Frame name T T2 := by
        intro l2
        induction l2 with
        | nil =>
          intro _ T T2 hT
          rw [show Builder.dependsList T name [] = Except.ok T from rfl] at hT
          simp only [Except.ok.injEq] at hT
          subst hT
          exact Frame.refl'
        | cons dd rest ihl =>
          intro hsz T T2 hT
          simp only [Builder.dependsList] at hT
          cases hdd : Builder.depends T name dd with
          | error e => rw [hdd] at hT; cases hT
          | ok T1 =>
            rw [hdd] at hT
            dsimp only at hT
            have f1 : Frame name T T1 :=
              ih dd T T1 (hsz dd (List.mem_cons_self _ _)) hdd
            have f2 : Frame name T1 T2 :=
              ihl (fun x hx => hsz x (List.mem_cons_of_mem _ hx)) T1 T2 hT
            exact f1.join f2
      apply haux l ?_ S S2 h
      intro x hx
      have h1 := pydeps_sizeOf_mem hx
      have h2 : sizeOf (PyDeps.plist l) ≤ k + 1 := hk
      simp only [PyDeps.plist.sizeOf_spec] at h2
      omega

/-- Claim C9, confirmed.  Re-registering a name replaces its action,
appends (never replaces) its dependency edges, and leaves every other
name's action and edges unchanged, in both variants. -/
theorem claim_C9 :
    (∀ (S S2 : St) (name : Name) (action : Act) (d : PyDeps),
      name ∈ keysOf S.targets →
      GraphRunner.target S name action d = Except.ok S2 →
      lookup? S2.targets name = some action ∧
      (∀ m, m ≠ name → lookup? S2.targets m = lookup? S.targets m ∧
        lookup? S2.deps m = lookup? S.deps m) ∧
      (∃ ext, depsOf S2 name = depsOf S name ++ ext)) ∧
    (∀ (S S2 : St) (name : Name) (action : Act) (d : PyDeps),
      name ∈ keysOf S.targets →
      Builder.target S name action d = Except.ok S2 →
      lookup? S2.targets name = some action ∧
      (∀ m, m ≠ name → lookup? S2.targets m = lookup? S.targets m ∧
        lookup? S2.deps m = lookup? S.deps m) ∧
      (∃ ext, depsOf S2 name = depsOf S name ++ ext)) := by
  constructor
  · intro S S2 name action d _ h
    by_cases hsp : hasSpace name = true
    · simp [GraphRunner.target, hsp] at h
    · simp only [GraphRunner.target, hsp, Bool.false_eq_true, if_false] at h
      obtain ⟨ht, hd, ext, he⟩ :=
        dependsG_frame name (sizeOf d) d _ S2 (le_refl _) h
      rw [show ({ S with targets := upsert S.targets name action } : St).targets
          = upsert S.targets name action from rfl] at ht
      refine ⟨?_, ?_, ext, ?_⟩
      · rw [ht, lookup?_upsert_self]
      · intro m hm
        refine ⟨?_, hd m hm⟩
        rw [ht, lookup?_upsert_ne _ _ _ _ hm]
      · exact he
  · intro S S2 name action d _ h
    by_cases hsp : hasSpace name = true
    · simp [Builder.target, hsp] at h
    · simp only [Builder.target, hsp, Bool.false_eq_true, if_false] at h
      obtain ⟨ht, hd, ext, he⟩ :=
        dependsB_frame name (sizeOf d) d _ S2 (le_refl _) h
      rw [show ({ S with targets := upsert S.targets name action } : St).targets
          = upsert S.targets name action from rfl] at ht
      refine ⟨?_, ?_, ext, ?_⟩
      · rw [ht, lookup?_upsert_self]
      · intro m hm
        refine ⟨?_, hd m hm⟩
        rw [ht, lookup?_upsert_ne _ _ _ _ hm]
      · exact he

/-- Registry with one registered target t that has one declared edge,
about to be re-registered. -/
def preS9 : St := ⟨[(nT, Act.noop)], [(nT, [Dep.anon 1])]⟩

/-- The registry after re-registering t with a new action and one more
dependency: the action is replaced, the old edge stays, the new edge is
appended. -/
def postS9 : St := ⟨[(nT, Act.call 2)], [(nT, [Dep.anon 1, Dep.byName nZ])]⟩

/-- Claim C9 witness: the theorem applied to re-registering t on `preS9`
with a new action and a forward by-name dependency on z. -/
theorem claim_C9_witness :
    (lookup? postS9.targets nT = some (Act.call 2) ∧
      (∀ m, m ≠ nT → lookup? postS9.targets m = lookup? preS9.targets m ∧
        lookup? postS9.deps m = lookup? preS9.deps m) ∧
      (∃ ext, depsOf postS9 nT = depsOf preS9 nT ++ ext)) ∧
    (lookup? postS9.targets nT = some (Act.call 2) ∧
      (∀ m, m ≠ nT → lookup? postS9.targets m = lookup? preS9.targets m ∧
        lookup? postS9.deps m = lookup? preS9.deps m) ∧
      (∃ ext, depsOf postS9 nT = depsOf preS9 nT ++ ext)) :=
  ⟨claim_C9.1 preS9 postS9 nT (Act.call 2) (PyDeps.pstr nZ) (by decide) (by decide),
   claim_C9.2 preS9 postS9 nT (Act.call 2) (PyDeps.pstr nZ) (by decide) (by decide)⟩
